import Mathlib

/-!
Verification of the flask-resty query-translation layer: filtering,
pagination parameter surface, cursor codec, keyset pagination invariants,
the `assert_shape`/`Shape` test helpers, and the per-request property cache.

Filtering, pagination and the cursor codec are modelled from the
specification (their implementation module is not part of the sources at
hand; only their tests are), while `assert_shape`/`Shape`
(flask_resty/testing.py) and `request_cached_property`
(flask_resty/decorators.py) are embedded directly from the source.
-/

namespace FlaskResty

/-! ## Widgets: the four-record dataset of tests/test_filtering.py -/

structure Widget where
  id : Nat
  color : String
  size : Int
deriving DecidableEq, Repr

/-- The four-widget dataset created by the `data` fixture in
tests/test_filtering.py: id1 color=red size=1, id2 color=green size=2,
id3 color=blue size=3, id4 color=red size=6. -/
def widgets : List Widget :=
  [⟨1, "red", 1⟩, ⟨2, "green", 2⟩, ⟨3, "blue", 3⟩, ⟨4, "red", 6⟩]

/-! ## Filtering, modelled from the spec -/

/-- Errors raised by the filtering layer (spec section 7). -/
inductive FilterError where
  | unknownFilterField (key : String)
  | invalidFilterValue (key : String)
deriving DecidableEq, Repr

/-- Splitting a list of characters on commas. -/
def splitCharsOnComma : List Char → List (List Char)
  | [] => [[]]
  | c :: cs =>
    match splitCharsOnComma cs with
    | [] => [[c]]
    | g :: gs => if c = ',' then [] :: g :: gs else (c :: g) :: gs

/-- Modelled from the spec: comma-separated multi-values in a
`filter[field]` query value (spec sections 4.1, 6). -/
def splitCommas (s : String) : List String :=
  (splitCharsOnComma s.data).map String.mk

/-- Parsing every raw value in a list, failing if any single parse fails
(spec section 3: an unparseable value yields a validation error). -/
def parseAll {α : Type} (parse : String → Option α) : List String → Option (List α)
  | [] => some []
  | s :: rest =>
    match parse s with
    | none => none
    | some v => (parseAll parse rest).map (v :: ·)

/-- Modelled from the spec: a FilterField (spec section 4.1): given the raw
query-string value, split it on commas, parse each piece with the field's
value parser, and build the predicate that is the logical OR of
`operator(target_field, parsed_value)` over all parsed values.  The
Filtering implementation module is not among the sources; this follows the
spec's words and the behaviour pinned down by tests/test_filtering.py. -/
def filterField {α : Type} (parse : String → Option α) (test : Widget → α → Bool)
    (raw : String) : Option (Widget → Bool) :=
  (parseAll parse (splitCommas raw)).map (fun vals w => vals.any (test w))

/-- Modelled from the spec: a CustomFilterFunction (spec sections 3, 4.2):
the raw value is validated by the function's own value parser, and the
function is then evaluated once per candidate record as a boolean
predicate over (record, parsed value). -/
def customFilter {α : Type} (parse : String → Option α) (f : Widget → α → Bool)
    (raw : String) : Option (Widget → Bool) :=
  (parse raw).map (fun v w => f w v)

/-- Folding decimal digit characters into a natural number, failing on the
first non-digit character. -/
def natFromDigits : List Char → Nat → Option Nat
  | [], acc => some acc
  | c :: cs, acc =>
    if c.isDigit then natFromDigits cs (10 * acc + (c.toNat - 48)) else none

/-- Modelled from the spec and tests/test_filtering.py: marshmallow's
Integer field parser — an optional leading minus sign followed by decimal
digits. -/
def parseIntStr (s : String) : Option Int :=
  match s.data with
  | '-' :: c :: cs => (natFromDigits (c :: cs) 0).map (fun n => -(n : Int))
  | [] => none
  | cs => (natFromDigits cs 0).map (fun n => (n : Int))

/-- Modelled from the spec and tests/test_filtering.py: marshmallow's
Boolean field parser, restricted to the canonical `true`/`false` forms
exercised by the tests. -/
def parseBoolStr : String → Option Bool
  | "true" => some true
  | "false" => some false
  | _ => none

/-- The equality test used by the `color` filter: `operator.eq`. -/
def colorTest (w : Widget) (v : String) : Bool := w.color == v

/-- The OR-of-equalities predicate a comma-separated `filter[color]` value
builds. -/
def colorPred (vals : List String) : Widget → Bool :=
  fun w => vals.any (colorTest w)

/-- The greater-or-equal test used by the `size_min` filter:
`operator.ge(size, value)`. -/
def sizeMinTest (w : Widget) (v : Int) : Bool := decide (v ≤ w.size)

/-- The custom divisibility operator of the `size_divides` filter:
`size % value == 0`. -/
def sizeDividesTest (w : Widget) (v : Int) : Bool := w.size % v == 0

/-- The custom filter function `filter_size_is_odd` of
tests/test_filtering.py: `model.size % 2 == int(value)`. -/
def sizeIsOddTest (w : Widget) (v : Bool) : Bool :=
  w.size % 2 == (if v then 1 else 0)

/-- Modelled from the spec and tests/test_filtering.py: the `Filtering`
declaration of WidgetListView, a mapping from registered (underscored)
filter names to raw-value-to-predicate builders. -/
def widgetFilters : List (String × (String → Option (Widget → Bool))) :=
  [ ("color", filterField some colorTest),
    ("size_min", filterField parseIntStr sizeMinTest),
    ("size_divides", filterField parseIntStr sizeDividesTest),
    ("size_is_odd", customFilter parseBoolStr sizeIsOddTest) ]

/-- Modelled from the behaviour pinned by tests/test_filtering.py: a filter
registered under an underscored name is exposed to clients under the
hyphenated form of that name (`size_min` ↦ `filter[size-min]`). -/
def hyphenate (s : String) : String :=
  String.mk (s.data.map fun c => if c = '_' then '-' else c)

/-- Looking up the filter responsible for a client-facing query key. -/
def lookupFilter (key : String) : Option (String → Option (Widget → Bool)) :=
  (widgetFilters.find? (fun p => hyphenate p.1 == key)).map Prod.snd

/-- Modelled from the spec (section 4.2): build one combined predicate from
the request's `filter[...]` parameters; distinct filters are combined with
logical AND, an unrecognized key is `UnknownFilterField`, an unparseable
value is `InvalidFilterValue`. -/
def buildPredicate : List (String × String) → Except FilterError (Widget → Bool)
  | [] => .ok (fun _ => true)
  | (key, raw) :: rest =>
    match lookupFilter key with
    | none => .error (.unknownFilterField key)
    | some build =>
      match build raw with
      | none => .error (.invalidFilterValue key)
      | some p => (buildPredicate rest).map (fun q w => p w && q w)

/-- Modelled from the spec: the list view over the four-widget dataset;
the filter predicate is applied to the collection in its primary-key
order (the order the tests observe), and ids are returned. -/
def listWidgets (params : List (String × String)) : Except FilterError (List Nat) :=
  (buildPredicate params).map (fun p => (widgets.filter p).map Widget.id)

end FlaskResty

deriving instance DecidableEq for Except

namespace FlaskResty

/-! ## Supporting lemmas for the filtering theorems -/

theorem parseAll_some (xs : List String) : parseAll some xs = some xs := by
  induction xs with
  | nil => rfl
  | cons x xs ih => simp [parseAll, ih]

theorem find?_isSome_eq_any {α : Type} (p : α → Bool) (l : List α) :
    (l.find? p).isSome = l.any p := by
  induction l with
  | nil => rfl
  | cons x xs ih =>
    cases hp : p x <;>
      simp [List.find?_cons_of_pos, List.find?_cons_of_neg, hp, ih, List.any_cons]

theorem filterField_eq_colorPred (raw : String) :
    filterField some colorTest raw = some (colorPred (splitCommas raw)) := by
  simp only [filterField, parseAll_some, Option.map_some]
  rfl

theorem mem_filter_colorPred (vals : List String) (l : List Widget) (w : Widget) :
    w ∈ l.filter (colorPred vals) ↔ ∃ v ∈ vals, w ∈ l.filter (colorPred [v]) := by
  simp only [List.mem_filter, colorPred, List.any_eq_true, List.mem_singleton,
    List.any_cons, List.any_nil, Bool.or_false]
  constructor
  · rintro ⟨hw, v, hv, ht⟩
    exact ⟨v, hv, hw, ht⟩
  · rintro ⟨v, hv, hw, ht⟩
    exact ⟨hw, v, hv, ht⟩

end FlaskResty

namespace FlaskResty

/-! ## Claim theorems: filtering -/

/-- C1: for the filter field registered with the equality operator,
requesting `filter[color]=v1,...,vN` returns exactly the union of the N
independent single-value queries, in collection (sort) order: the engine
builds the OR-of-equalities predicate over the comma-split values, a record
passes it exactly when it passes some single-value query, the combined
result is a sublist of the collection (order preserved per the active
sort), and concretely `filter[color]=green,blue` returns `[id2, id3]`,
the records matched by `filter[color]=green` and `filter[color]=blue`. -/
theorem eq_filter_many_values_is_union_of_single_value_queries :
    (∀ raw, filterField some colorTest raw = some (colorPred (splitCommas raw))) ∧
    (∀ (vals : List String) (l : List Widget) (w : Widget),
      w ∈ l.filter (colorPred vals) ↔ ∃ v ∈ vals, w ∈ l.filter (colorPred [v])) ∧
    (∀ (vals : List String) (l : List Widget),
      (l.filter (colorPred vals)).Sublist l) ∧
    listWidgets [("color", "green,blue")] = .ok [2, 3] ∧
    listWidgets [("color", "green")] = .ok [2] ∧
    listWidgets [("color", "blue")] = .ok [3] := by
  refine ⟨filterField_eq_colorPred, mem_filter_colorPred,
    fun vals l => List.filter_sublist l, ?_, ?_, ?_⟩ <;> decide

/-- C2: over the four-record dataset, `filter[color]=red` returns
`[id1, id4]`, `filter[size-min]=3` under the greater-or-equal operator
returns `[id3, id4]`, and `filter[size-divides]=2` under the custom
divisibility predicate returns `[id2, id4]`. -/
theorem concrete_filters_on_four_widget_dataset :
    listWidgets [("color", "red")] = .ok [1, 4] ∧
    listWidgets [("size-min", "3")] = .ok [3, 4] ∧
    listWidgets [("size-divides", "2")] = .ok [2, 4] ∧
    (∀ w v, sizeMinTest w v = decide (w.size ≥ v)) ∧
    (∀ w v, sizeDividesTest w v = (w.size % v == 0)) := by
  refine ⟨by decide, by decide, by decide, fun w v => rfl, fun w v => rfl⟩

/-- C3: the custom filter function for `size_is_odd` is registered with its
own Boolean value parser; the raw value `true` parses to boolean true, the
function is a boolean predicate over (record, parsed value) testing
`size % 2 == int(value)`, an unparseable raw value is rejected as
`InvalidFilterValue`, and `filter[size-is-odd]=true` returns exactly
`[id1, id3]` over the four-widget dataset. -/
theorem custom_filter_function_size_is_odd :
    parseBoolStr "true" = some true ∧
    (∀ w, sizeIsOddTest w true = (w.size % 2 == 1)) ∧
    (∀ raw, customFilter parseBoolStr sizeIsOddTest raw =
      (parseBoolStr raw).map (fun v w => sizeIsOddTest w v)) ∧
    listWidgets [("size-is-odd", "7")] = .error (.invalidFilterValue "size-is-odd") ∧
    listWidgets [("size-is-odd", "true")] = .ok [1, 3] := by
  exact ⟨by decide, fun w => rfl, fun raw => rfl, by decide, by decide⟩

/-- C8: filter fields registered under underscore-separated names are
matched in the query string under the hyphenated translation of the name:
a key is recognized exactly when it is the underscore-to-hyphen
translation of a registered name, `size-min`, `size-divides` and
`size-is-odd` are recognized, the underscore forms are not, and querying
the underscore form fails with `UnknownFilterField`. -/
theorem filter_names_underscore_to_hyphen :
    (∀ key : String,
      (lookupFilter key).isSome = widgetFilters.any (fun p => hyphenate p.1 == key)) ∧
    hyphenate "size_min" = "size-min" ∧
    hyphenate "size_divides" = "size-divides" ∧
    hyphenate "size_is_odd" = "size-is-odd" ∧
    (lookupFilter "size-min").isSome = true ∧
    (lookupFilter "size-divides").isSome = true ∧
    (lookupFilter "size-is-odd").isSome = true ∧
    (lookupFilter "size_min").isSome = false ∧
    (lookupFilter "size_divides").isSome = false ∧
    (lookupFilter "size_is_odd").isSome = false ∧
    listWidgets [("size_min", "3")] = .error (.unknownFilterField "size_min") := by
  refine ⟨fun key => ?_, by decide, by decide, by decide, by decide, by decide,
    by decide, by decide, by decide, by decide, by decide⟩
  simp [lookupFilter, Option.isSome_map, find?_isSome_eq_any]

/-! ## Pagination parameter surface and offset-mode metadata -/

/-- A query parameter declared for a view: its client-facing name, its
swagger type, and its description. -/
structure QueryParam where
  name : String
  type : String
  description : String
deriving DecidableEq, Repr

/-- Modelled from the spec: the query parameters recognized by
PagePagination (spec sections 4.4, 6).  The parameter-declaration module is
not among the sources; the names, types and descriptions here are the ones
its test (tests/test_swagger.py, `test_pagination`) asserts the view
declares. -/
def pagePaginationQueryParams : List QueryParam :=
  [⟨"limit", "int", "pagination limit"⟩,
   ⟨"offset", "int", "pagination offset"⟩,
   ⟨"page", "int", "page number"⟩]

/-- Modelled from the spec: the query parameters recognized by
RelayCursorPagination (spec sections 4.5, 6); the cursor parameter is the
one its test (tests/test_swagger.py, `test_relay_cursor_pagination`)
asserts the view declares, and the limit parameter is the spec's bounded
`limit`. -/
def relayCursorPaginationQueryParams : List QueryParam :=
  [⟨"cursor", "string", "pagination cursor"⟩,
   ⟨"limit", "int", "pagination limit"⟩]

/-- Modelled from the spec: the pagination metadata fields produced for a
list response in offset/page mode (spec section 6, and
tests/test_swagger.py `test_get_pagination_meta`): field name and swagger
type. -/
def pagePaginationMetaFields : List (String × String) :=
  [("has_next_page", "boolean")]

/-- C4 (counterexample): none of the bracketed names `page[number]`,
`page[size]`, `page[cursor]`, `page[limit]` is a recognized pagination
query parameter of either pagination mode. -/
theorem bracketed_page_params_not_recognized :
    "page[number]" ∉ pagePaginationQueryParams.map QueryParam.name ∧
    "page[size]" ∉ pagePaginationQueryParams.map QueryParam.name ∧
    "page[cursor]" ∉ relayCursorPaginationQueryParams.map QueryParam.name ∧
    "page[limit]" ∉ relayCursorPaginationQueryParams.map QueryParam.name := by
  decide

/-- C4 (amended): offset-mode paging is requested with the flat query
parameters `limit`, `offset` and `page` (the page number), and cursor-mode
paging with `cursor` (the cursor token) and `limit`. -/
theorem pagination_query_parameter_names :
    pagePaginationQueryParams.map QueryParam.name = ["limit", "offset", "page"] ∧
    relayCursorPaginationQueryParams.map QueryParam.name = ["cursor", "limit"] ∧
    pagePaginationQueryParams.map QueryParam.description =
      ["pagination limit", "pagination offset", "page number"] ∧
    relayCursorPaginationQueryParams.map QueryParam.description =
      ["pagination cursor", "pagination limit"] := by
  decide

/-- C5: in offset/page pagination mode the metadata for a list response
consists of exactly the boolean field `has_next_page`: no `has_prev_page`
flag and no cursor tokens are produced in that mode. -/
theorem offset_mode_meta_is_exactly_has_next_page :
    pagePaginationMetaFields.map Prod.fst = ["has_next_page"] ∧
    ("has_next_page", "boolean") ∈ pagePaginationMetaFields ∧
    "has_prev_page" ∉ pagePaginationMetaFields.map Prod.fst ∧
    "cursor" ∉ pagePaginationMetaFields.map Prod.fst ∧
    "next_cursor" ∉ pagePaginationMetaFields.map Prod.fst ∧
    "prev_cursor" ∉ pagePaginationMetaFields.map Prod.fst := by
  decide

/-! ## CursorCodec, modelled from the spec -/

/-- Modelled from the spec (section 4.6): a typed sort-key value carried by
a cursor, tagged with its primitive kind.  The codec module is not among
the sources; the integer, text and timestamp kinds named by the spec are
modelled (timestamps as epoch integers). -/
inductive CursorValue where
  | intVal (i : Int)
  | textVal (s : String)
  | stampVal (t : Int)
deriving DecidableEq, Repr

/-- The character for a decimal digit value. -/
def digitChar (d : Nat) : Char := Char.ofNat (48 + d)

/-- The decimal digit value of a digit character. -/
def charDigit (c : Char) : Nat := c.toNat - 48

/-- Decimal digits of a natural number, most significant first; `0` has
the single digit `0`. -/
def natDigitsMSD (n : Nat) : List Nat :=
  if n = 0 then [0] else (Nat.digits 10 n).reverse

/-- Decimal representation of a natural number, most significant digit
first; `0` is represented as `"0"`. -/
def encodeNatChars (n : Nat) : List Char :=
  (natDigitsMSD n).map digitChar

/-- Decimal representation of an integer, with a leading minus sign for
negative values. -/
def encodeIntChars (i : Int) : List Char :=
  if i < 0 then '-' :: encodeNatChars i.natAbs else encodeNatChars i.natAbs

/-- Modelled from the spec: the encoding of one typed value: a kind tag,
then a self-delimiting payload (dot-terminated decimal for integers and
timestamps, length-prefixed text for strings). -/
def encodeValue : CursorValue → List Char
  | .intVal i => 'i' :: (encodeIntChars i ++ ['.'])
  | .stampVal t => 't' :: (encodeIntChars t ++ ['.'])
  | .textVal s => 's' :: (encodeNatChars s.data.length ++ (':' :: s.data))

/-- The concatenated encoding of an ordered tuple of typed values. -/
def encodeValues : List CursorValue → List Char
  | [] => []
  | v :: vs => encodeValue v ++ encodeValues vs

/-- Modelled from the spec (section 4.6): `CursorCodec.encode` — an ordered
tuple of typed sort-key values (tie-break value included) becomes a single
opaque string. -/
def encodeCursor (vs : List CursorValue) : String := String.mk (encodeValues vs)

/-- Greedily consuming decimal digits, accumulating their value. -/
def parseNatAux : List Char → Nat → Nat × List Char
  | [], acc => (acc, [])
  | c :: cs, acc =>
    if c.isDigit then parseNatAux cs (10 * acc + charDigit c) else (acc, c :: cs)

/-- Parsing a nonempty run of decimal digits; `none` when the input does
not start with a digit. -/
def parseNatChars : List Char → Option (Nat × List Char)
  | [] => none
  | c :: cs => if c.isDigit then some (parseNatAux cs (charDigit c)) else none

/-- Parsing an optionally minus-signed decimal integer. -/
def parseIntChars (cs : List Char) : Option (Int × List Char) :=
  match cs with
  | [] => none
  | c :: rest =>
    if c = '-' then (parseNatChars rest).map (fun p => (-(p.1 : Int), p.2))
    else (parseNatChars (c :: rest)).map (fun p => ((p.1 : Int), p.2))

/-- Consuming a terminating dot. -/
def expectDot : List Char → Option (List Char)
  | '.' :: cs => some cs
  | _ => none

/-- Consuming a length-prefix colon. -/
def expectColon : List Char → Option (List Char)
  | ':' :: cs => some cs
  | _ => none

/-- Parsing a length-prefixed text payload. -/
def parseTextChars (cs : List Char) : Option (String × List Char) :=
  (parseNatChars cs).bind fun p =>
    (expectColon p.2).bind fun r =>
      if p.1 ≤ r.length then some (String.mk (r.take p.1), r.drop p.1) else none

/-- Parsing one tagged typed value; `none` on a malformed or unknown-kind
input (the spec's `InvalidCursor`). -/
def parseValue (cs : List Char) : Option (CursorValue × List Char) :=
  match cs with
  | [] => none
  | c :: rest =>
    if c = 'i' then
      (parseIntChars rest).bind fun p => (expectDot p.2).map (fun r => (.intVal p.1, r))
    else if c = 't' then
      (parseIntChars rest).bind fun p => (expectDot p.2).map (fun r => (.stampVal p.1, r))
    else if c = 's' then
      (parseTextChars rest).map (fun p => (.textVal p.1, p.2))
    else none

/-- Parsing a sequence of tagged values to the end of the input, with
explicit fuel (one unit per value suffices). -/
def parseValues (fuel : Nat) (cs : List Char) : Option (List CursorValue) :=
  if cs.isEmpty then some []
  else
    match fuel with
    | 0 => none
    | fuel' + 1 =>
      (parseValue cs).bind fun p => (parseValues fuel' p.2).map (p.1 :: ·)

/-- Modelled from the spec (section 4.6): `CursorCodec.decode` — reverses
`encodeCursor`, failing (`InvalidCursor`) on structurally malformed or
type-mismatched input. -/
def decodeCursor (s : String) : Option (List CursorValue) :=
  parseValues s.data.length s.data

/-- Whether a character list does not begin with a decimal digit, so a
greedy digit run stops exactly at its boundary. -/
def headNotDigit : List Char → Prop
  | [] => True
  | c :: _ => c.isDigit = false

/-! ## CursorCodec round-trip lemmas -/

theorem charDigit_digitChar {d : Nat} (h : d < 10) : charDigit (digitChar d) = d := by
  interval_cases d <;> decide

theorem isDigit_digitChar {d : Nat} (h : d < 10) : (digitChar d).isDigit = true := by
  interval_cases d <;> decide

theorem parseNatAux_append (ds : List Nat) (hds : ∀ d ∈ ds, d < 10) (rest : List Char)
    (hrest : headNotDigit rest) (acc : Nat) :
    parseNatAux (ds.map digitChar ++ rest) acc =
      (ds.foldl (fun a d => 10 * a + d) acc, rest) := by
  induction ds generalizing acc with
  | nil =>
    cases rest with
    | nil => rfl
    | cons c cs =>
      simp only [headNotDigit] at hrest
      simp [parseNatAux, hrest]
  | cons d ds ih =>
    have hd : d < 10 := hds d (List.mem_cons_self ..)
    simp only [List.map_cons, List.cons_append, parseNatAux, isDigit_digitChar hd,
      if_pos, List.foldl_cons]
    rw [charDigit_digitChar hd]
    exact ih (fun x hx => hds x (List.mem_cons_of_mem _ hx)) _

theorem foldr_eq_ofDigits (l : List Nat) :
    l.foldr (fun d a => 10 * a + d) 0 = Nat.ofDigits 10 l := by
  induction l with
  | nil => simp
  | cons d l ih =>
    simp only [List.foldr_cons, ih, Nat.ofDigits_cons]
    omega

theorem natDigitsMSD_ne_nil (n : Nat) : natDigitsMSD n ≠ [] := by
  unfold natDigitsMSD
  split
  · simp
  · simpa using (Nat.digits_ne_nil_iff_ne_zero).mpr (by omega)

theorem natDigitsMSD_lt (n : Nat) : ∀ d ∈ natDigitsMSD n, d < 10 := by
  unfold natDigitsMSD
  split
  · simp
  · intro d hd
    exact Nat.digits_lt_base (by norm_num) (List.mem_reverse.mp hd)

theorem natDigitsMSD_foldl (n : Nat) :
    (natDigitsMSD n).foldl (fun a d => 10 * a + d) 0 = n := by
  unfold natDigitsMSD
  split
  · simp [*]
  · rw [List.foldl_reverse, foldr_eq_ofDigits, Nat.ofDigits_digits]

theorem parseNatChars_encode (n : Nat) (rest : List Char) (hrest : headNotDigit rest) :
    parseNatChars (encodeNatChars n ++ rest) = some (n, rest) := by
  obtain ⟨d, ds, hds⟩ : ∃ d ds, natDigitsMSD n = d :: ds := by
    cases h : natDigitsMSD n with
    | nil => exact absurd h (natDigitsMSD_ne_nil n)
    | cons d ds => exact ⟨d, ds, rfl⟩
  have hall := natDigitsMSD_lt n
  rw [hds] at hall
  have hd : d < 10 := hall d (List.mem_cons_self ..)
  have hds' : ∀ x ∈ ds, x < 10 := fun x hx => hall x (List.mem_cons_of_mem _ hx)
  have hfold := natDigitsMSD_foldl n
  rw [hds, List.foldl_cons] at hfold
  unfold encodeNatChars
  rw [hds]
  simp only [List.map_cons, List.cons_append, parseNatChars, isDigit_digitChar hd, if_pos]
  rw [charDigit_digitChar hd, parseNatAux_append ds hds' rest hrest d]
  simpa using hfold

theorem encodeNatChars_head_digit (n : Nat) :
    ∃ c cs, encodeNatChars n = c :: cs ∧ c.isDigit = true := by
  obtain ⟨d, ds, hds⟩ : ∃ d ds, natDigitsMSD n = d :: ds := by
    cases h : natDigitsMSD n with
    | nil => exact absurd h (natDigitsMSD_ne_nil n)
    | cons d ds => exact ⟨d, ds, rfl⟩
  have hd : d < 10 := by
    have := natDigitsMSD_lt n
    rw [hds] at this
    exact this d (List.mem_cons_self ..)
  exact ⟨digitChar d, ds.map digitChar, by simp [encodeNatChars, hds],
    isDigit_digitChar hd⟩

theorem headNotDigit_of_not_digit {c : Char} {cs : List Char} (h : c.isDigit = false) :
    headNotDigit (c :: cs) := h

theorem parseIntChars_encode (i : Int) (rest : List Char) (hrest : headNotDigit rest) :
    parseIntChars (encodeIntChars i ++ rest) = some (i, rest) := by
  unfold encodeIntChars
  by_cases hneg : i < 0
  · rw [if_pos hneg, List.cons_append]
    simp only [parseIntChars, if_true]
    rw [parseNatChars_encode i.natAbs rest hrest]
    simp only [Option.map_some']
    congr 2
    omega
  · rw [if_neg hneg]
    obtain ⟨c, cs, hcons, hdig⟩ := encodeNatChars_head_digit i.natAbs
    have hcne : ¬(c = '-') := by
      intro h
      rw [h] at hdig
      exact absurd hdig (by decide)
    rw [hcons, List.cons_append]
    simp only [parseIntChars]
    rw [if_neg hcne, ← List.cons_append, ← hcons,
      parseNatChars_encode i.natAbs rest hrest]
    simp only [Option.map_some']
    congr 2
    omega

theorem parseTextChars_encode (s : String) (rest : List Char) :
    parseTextChars (encodeNatChars s.data.length ++ (':' :: (s.data ++ rest))) =
      some (s, rest) := by
  unfold parseTextChars
  rw [parseNatChars_encode s.data.length (':' :: (s.data ++ rest))
    (headNotDigit_of_not_digit (by decide))]
  simp only [Option.some_bind, expectColon]
  rw [if_pos (by simp)]
  simp only [List.take_left, List.drop_left]

theorem parseValue_encode (v : CursorValue) (rest : List Char) :
    parseValue (encodeValue v ++ rest) = some (v, rest) := by
  cases v with
  | intVal i =>
    simp only [encodeValue, List.cons_append, List.append_assoc, List.nil_append,
      parseValue, if_true]
    rw [parseIntChars_encode i ('.' :: rest) (headNotDigit_of_not_digit (by decide))]
    simp [expectDot]
  | stampVal t =>
    simp only [encodeValue, List.cons_append, List.append_assoc, List.nil_append,
      parseValue, if_true]
    rw [parseIntChars_encode t ('.' :: rest) (headNotDigit_of_not_digit (by decide))]
    simp [expectDot]
  | textVal s =>
    simp only [encodeValue, List.cons_append, List.append_assoc, List.nil_append,
      parseValue, if_true]
    rw [parseTextChars_encode s rest]
    rfl

theorem encodeValue_ne_nil (v : CursorValue) : encodeValue v ≠ [] := by
  cases v <;> simp [encodeValue]

theorem length_le_encodeValues (vs : List CursorValue) :
    vs.length ≤ (encodeValues vs).length := by
  induction vs with
  | nil => simp [encodeValues]
  | cons v vs ih =>
    have h1 : 0 < (encodeValue v).length :=
      List.length_pos.mpr (encodeValue_ne_nil v)
    simp only [encodeValues, List.length_append, List.length_cons]
    omega

theorem parseValues_encode (vs : List CursorValue) (fuel : Nat)
    (hfuel : vs.length ≤ fuel) :
    parseValues fuel (encodeValues vs) = some vs := by
  induction vs generalizing fuel with
  | nil =>
    cases fuel <;> simp [encodeValues, parseValues]
  | cons v vs ih =>
    have hne : encodeValue v ++ encodeValues vs ≠ [] :=
      List.append_ne_nil_of_left_ne_nil (encodeValue_ne_nil v) _
    cases fuel with
    | zero => simp at hfuel
    | succ fuel' =>
      rw [encodeValues, parseValues, if_neg (by simpa using hne)]
      rw [parseValue_encode v (encodeValues vs)]
      simp only [Option.some_bind]
      rw [ih fuel' (by simpa using hfuel)]
      rfl

/-- C6: for every ordered tuple of typed sort-key values (tie-break value
included), decoding the encoding of that tuple returns the original typed
tuple unchanged: `decode` reverses `encode` for every validly produced
CursorToken. -/
theorem cursor_encode_decode_roundtrip (vs : List CursorValue) :
    decodeCursor (encodeCursor vs) = some vs := by
  unfold decodeCursor encodeCursor
  exact parseValues_encode vs _ (length_le_encodeValues vs)

/-! ## request_cached_property (flask_resty/decorators.py) -/

/-- The per-request context storage used by `flask_resty.context`: values
keyed by (view identity, function name), living on the request, not on the
view object. -/
def ReqCtx (Val : Type) : Type := List ((Nat × String) × Val)

/-- Embedded from the `context.get_for_view` call in
flask_resty/decorators.py: look up the value cached on the request context
for the given view and function name. -/
def get_for_view {Val : Type} : ReqCtx Val → Nat → String → Option Val
  | [], _, _ => none
  | ((v', n'), x) :: rest, v, n =>
    if v' = v ∧ n' = n then some x else get_for_view rest v n

/-- Embedded from the `context.set_for_view` call in
flask_resty/decorators.py: store a value on the request context for the
given view and function name. -/
def set_for_view {Val : Type} (ctx : ReqCtx Val) (v : Nat) (n : String) (x : Val) :
    ReqCtx Val :=
  ((v, n), x) :: ctx

/-- Embedded from flask_resty/decorators.py `request_cached_property`:
reading the wrapped property first consults the request context keyed by
view and function name; on a miss it invokes the underlying function,
stores the result, and returns it.  The boolean in the result records
whether the underlying function was invoked by this read. -/
def readCachedProperty {Val : Type} (f : Nat → Val) (v : Nat) (name : String)
    (ctx : ReqCtx Val) : Val × ReqCtx Val × Bool :=
  match get_for_view ctx v name with
  | some cached => (cached, ctx, false)
  | none => (f v, set_for_view ctx v name (f v), true)

/-- Reading the property `n` times in sequence within one request context,
collecting the values returned, the final context, and the total number of
invocations of the underlying function. -/
def readCachedPropertyTimes {Val : Type} (f : Nat → Val) (v : Nat) (name : String) :
    Nat → ReqCtx Val → List Val × ReqCtx Val × Nat
  | 0, ctx => ([], ctx, 0)
  | n + 1, ctx =>
    let r := readCachedProperty f v name ctx
    let rest := readCachedPropertyTimes f v name n r.2.1
    (r.1 :: rest.1, rest.2.1, (if r.2.2 then 1 else 0) + rest.2.2)

/-- The value every read in a given request context returns: the cached
value when present, otherwise the function's value. -/
def firstReadValue {Val : Type} (f : Nat → Val) (v : Nat) (name : String)
    (ctx : ReqCtx Val) : Val :=
  match get_for_view ctx v name with
  | some cached => cached
  | none => f v

theorem get_for_view_set_for_view {Val : Type} (ctx : ReqCtx Val) (v : Nat)
    (n : String) (x : Val) : get_for_view (set_for_view ctx v n x) v n = some x := by
  simp [set_for_view, get_for_view]

theorem get_after_read {Val : Type} (f : Nat → Val) (v : Nat) (name : String)
    (ctx : ReqCtx Val) :
    get_for_view (readCachedProperty f v name ctx).2.1 v name =
      some (readCachedProperty f v name ctx).1 := by
  unfold readCachedProperty
  cases h : get_for_view ctx v name with
  | none => simp [get_for_view_set_for_view]
  | some cached => simp [h]

theorem readTimes_values {Val : Type} (f : Nat → Val) (v : Nat) (name : String)
    (n : Nat) (ctx : ReqCtx Val) :
    (readCachedPropertyTimes f v name n ctx).1 =
      List.replicate n (firstReadValue f v name ctx) := by
  induction n generalizing ctx with
  | zero => rfl
  | succ n ih =>
    have hfix : firstReadValue f v name (readCachedProperty f v name ctx).2.1 =
        (readCachedProperty f v name ctx).1 := by
      simp [firstReadValue, get_after_read]
    have hfirst : (readCachedProperty f v name ctx).1 = firstReadValue f v name ctx := by
      unfold readCachedProperty firstReadValue
      cases h : get_for_view ctx v name <;> simp
    simp only [readCachedPropertyTimes, ih, hfix, hfirst, List.replicate_succ]

theorem readTimes_invocations {Val : Type} (f : Nat → Val) (v : Nat) (name : String)
    (n : Nat) (ctx : ReqCtx Val) :
    (readCachedPropertyTimes f v name n ctx).2.2 =
      if (get_for_view ctx v name).isSome then 0 else min n 1 := by
  induction n generalizing ctx with
  | zero => simp [readCachedPropertyTimes]
  | succ n ih =>
    simp only [readCachedPropertyTimes]
    cases h : get_for_view ctx v name with
    | some cached =>
      simp [readCachedProperty, h, ih]
    | none =>
      have h' : get_for_view (readCachedProperty f v name ctx).2.1 v name =
          some (readCachedProperty f v name ctx).1 := get_after_read f v name ctx
      simp [readCachedProperty, h] at h' ⊢
      simp [ih, h']

/-- C10: within a single request context, reading a `request_cached_property`
any number of times invokes the underlying function at most once (zero
times when a cached value is already present, once otherwise) and every
read returns the same value; and because the cache lives on the request
context keyed by view and function name rather than on the view object, a
read in a fresh request context always re-invokes the function, even for
the same view object. -/
theorem request_cached_property_caches_per_request
    {Val : Type} (f : Nat → Val) (v : Nat) (name : String) (n : Nat)
    (ctx : ReqCtx Val) :
    (readCachedPropertyTimes f v name n ctx).1 =
      List.replicate n (firstReadValue f v name ctx) ∧
    (readCachedPropertyTimes f v name n ctx).2.2 =
      (if (get_for_view ctx v name).isSome then 0 else min n 1) ∧
    (readCachedPropertyTimes f v name n ctx).2.2 ≤ 1 ∧
    (readCachedProperty f v name ([] : ReqCtx Val)).2.2 = true ∧
    (readCachedProperty f v name ([] : ReqCtx Val)).1 = f v := by
  refine ⟨readTimes_values f v name n ctx, readTimes_invocations f v name n ctx, ?_, rfl, rfl⟩
  rw [readTimes_invocations f v name n ctx]
  split <;> omega

/-! ## Keyset (cursor) pagination windows, modelled from the spec -/

/-- Whether a collection comes back from the Collection abstraction in
strictly increasing key order: the coupled sort order with the implicit
unique tie-break key folded into `key`, making the order total (spec
sections 3, 4.5). -/
def sortedByKey {α : Type} (key : α → Nat) (l : List α) : Prop :=
  l.Pairwise (fun a b => key a < key b)

/-- Modelled from the spec (section 4.5): one cursor-mode fetch window over
the sorted, filtered collection: with no cursor the window starts at the
beginning; with an after-cursor the keyset predicate keeps exactly the
records whose (tie-broken) key exceeds the cursor's; the window is the
first `limit` records of what remains. -/
def cursorWindow {α : Type} (key : α → Nat) (limit : Nat) (c : Option Nat)
    (l : List α) : List α :=
  (match c with
   | none => l
   | some k => l.filter (fun r => decide (k < key r))).take limit

/-- Modelled from the spec (section 4.4): one offset-mode fetch window:
skip `page × limit` records positionally, take `limit`. -/
def offsetWindow {α : Type} (limit page : Nat) (l : List α) : List α :=
  (l.drop (page * limit)).take limit

theorem mem_of_getLast?_eq {α : Type} {l : List α} {a : α}
    (h : l.getLast? = some a) : a ∈ l := by
  obtain ⟨hne, heq⟩ := List.mem_getLast?_eq_getLast (show a ∈ l.getLast? from h)
  rw [heq]
  exact List.getLast_mem hne

theorem key_le_getLast {α : Type} {key : α → Nat} :
    ∀ {l : List α} {last r : α}, sortedByKey key l → l.getLast? = some last →
      r ∈ l → key r ≤ key last
  | [], _, _, _, hlast, _ => by simp at hlast
  | [a], last, r, _, hlast, hr => by
    simp only [List.getLast?_singleton, Option.some.injEq] at hlast
    simp only [List.mem_singleton] at hr
    subst hlast hr
    exact le_refl _
  | a :: b :: t, last, r, hsort, hlast, hr => by
    rw [List.getLast?_cons_cons] at hlast
    rw [List.mem_cons] at hr
    rcases hr with rfl | hr
    · have hmem : last ∈ b :: t := mem_of_getLast?_eq hlast
      have := (List.pairwise_cons.mp hsort).1 last hmem
      omega
    · exact key_le_getLast (List.pairwise_cons.mp hsort).2 hlast hr

/-- In a strictly key-sorted list, the prefix window of length `n` whose
last element is `last` contains exactly the members with key at most
`key last`. -/
theorem mem_take_iff_key_le {α : Type} {key : α → Nat} {l : List α} {n : Nat}
    {last r : α} (hsort : sortedByKey key l)
    (hlast : (l.take n).getLast? = some last) (hr : r ∈ l) :
    r ∈ l.take n ↔ key r ≤ key last := by
  have hsort' : sortedByKey key (l.take n) :=
    List.Pairwise.sublist (List.take_sublist n l) hsort
  constructor
  · intro hmem
    exact key_le_getLast hsort' hlast hmem
  · intro hle
    rw [← List.take_append_drop n l] at hr hsort
    rw [List.mem_append] at hr
    rcases hr with hmem | hmem
    · exact hmem
    · exfalso
      have hlt := (List.pairwise_append.mp hsort).2.2 last
        (mem_of_getLast?_eq hlast) r hmem
      omega

/-- C7: for a fixed (filter, sort) pair, cursor pagination neither skips
nor duplicates a record that is present and unchanged across two
successive fetches: with the second window anchored to the key of the
first window's last record, no record lies in both windows, and every
record (of both snapshots) whose key does not exceed the second window's
frontier lies in exactly one of them — because the keyset predicate is
anchored to record values.  Offset pagination offers no such guarantee:
over the concrete snapshots `[1,2,3,4]` and `[0,1,2,3,4]` (record 0
inserted ahead of the window between the two sorted fetches), record 2 is
returned by both positional windows of size 2. -/
theorem cursor_pagination_no_skip_no_dup {α : Type} (key : α → Nat)
    (l1 l2 : List α) (limit : Nat) (r last1 last2 : α)
    (h1 : sortedByKey key l1) (h2 : sortedByKey key l2)
    (hW1 : (cursorWindow key limit none l1).getLast? = some last1)
    (hW2 : (cursorWindow key limit (some (key last1)) l2).getLast? = some last2)
    (hr1 : r ∈ l1) (hr2 : r ∈ l2) :
    (¬(r ∈ cursorWindow key limit none l1 ∧
        r ∈ cursorWindow key limit (some (key last1)) l2)) ∧
    (key r ≤ key last2 →
      r ∈ cursorWindow key limit none l1 ∨
        r ∈ cursorWindow key limit (some (key last1)) l2) ∧
    ((2 : Nat) ∈ offsetWindow 2 0 [1, 2, 3, 4] ∧
      (2 : Nat) ∈ offsetWindow 2 1 [0, 1, 2, 3, 4] ∧
      sortedByKey (fun n : Nat => n) [1, 2, 3, 4] ∧
      sortedByKey (fun n : Nat => n) [0, 1, 2, 3, 4]) := by
  have hfilt2 : sortedByKey key (l2.filter (fun x => decide (key last1 < key x))) :=
    List.Pairwise.sublist (List.filter_sublist l2) h2
  refine ⟨?_, ?_, by decide, by decide, by unfold sortedByKey; decide,
    by unfold sortedByKey; decide⟩
  · rintro ⟨hin1, hin2⟩
    have hle : key r ≤ key last1 :=
      (mem_take_iff_key_le h1 hW1 hr1).mp hin1
    have hmemf : r ∈ l2.filter (fun x => decide (key last1 < key x)) :=
      List.mem_of_mem_take hin2
    have hgt : key last1 < key r := by
      have hdec := (List.mem_filter.mp hmemf).2
      simpa using hdec
    omega
  · intro hfrontier
    by_cases hcase : key r ≤ key last1
    · exact Or.inl ((mem_take_iff_key_le h1 hW1 hr1).mpr hcase)
    · refine Or.inr ?_
      have hrf : r ∈ l2.filter (fun x => decide (key last1 < key x)) := by
        rw [List.mem_filter]
        exact ⟨hr2, by simp; omega⟩
      exact (mem_take_iff_key_le hfilt2 hW2 hrf).mpr hfrontier

/-- Witness for C7: the guarantee at a concrete scenario — collection
`[10, 20, 30]` unchanged between fetches, window size 2, first window
`[10, 20]`, second window `[30]`: record 30 appears in exactly one
window. -/
theorem cursor_pagination_no_skip_no_dup_witness :
    sortedByKey (fun n : Nat => n) [10, 20, 30] ∧
    ((cursorWindow (fun n : Nat => n) 2 none [10, 20, 30]).getLast? = some 20) ∧
    ((cursorWindow (fun n : Nat => n) 2 (some 20) [10, 20, 30]).getLast? = some 30) ∧
    ((¬((30 : Nat) ∈ cursorWindow (fun n : Nat => n) 2 none [10, 20, 30] ∧
        (30 : Nat) ∈ cursorWindow (fun n : Nat => n) 2 (some 20) [10, 20, 30])) ∧
      ((30 : Nat) ≤ 30 →
        (30 : Nat) ∈ cursorWindow (fun n : Nat => n) 2 none [10, 20, 30] ∨
          (30 : Nat) ∈ cursorWindow (fun n : Nat => n) 2 (some 20) [10, 20, 30]) ∧
      ((2 : Nat) ∈ offsetWindow 2 0 [1, 2, 3, 4] ∧
        (2 : Nat) ∈ offsetWindow 2 1 [0, 1, 2, 3, 4] ∧
        sortedByKey (fun n : Nat => n) [1, 2, 3, 4] ∧
        sortedByKey (fun n : Nat => n) [0, 1, 2, 3, 4])) := by
  have hs : sortedByKey (fun n : Nat => n) [10, 20, 30] := by
    unfold sortedByKey
    decide
  refine ⟨hs, by decide, by decide, ?_⟩
  exact cursor_pagination_no_skip_no_dup (fun n : Nat => n) [10, 20, 30] [10, 20, 30]
    2 30 20 30 hs hs (by decide) (by decide) (by decide) (by decide)

/-! ## assert_shape and Shape (flask_resty/testing.py) -/

/-- A JSON-like Python value as handled by flask_resty/testing.py:
mappings (string-keyed), sequences, strings (modelled as atomic values),
floats (modelled as exact rationals), integers, booleans, `None`, and the
`UNDEFINED` sentinel. -/
inductive JVal where
  | null
  | undef
  | bool (b : Bool)
  | int (n : Int)
  | float (q : ℚ)
  | str (s : String)
  | list (xs : List JVal)
  | obj (kvs : List (String × JVal))

/-- Identity test against the `UNDEFINED` sentinel (`value is UNDEFINED`). -/
def isUndef : JVal → Bool
  | .undef => true
  | _ => false

/-- Numeric view of a value under Python's numeric tower
(`bool ⊂ int ⊂ float`), used by `==` and by the float-tolerance branch. -/
def asRat : JVal → Option ℚ
  | .bool b => some (if b then 1 else 0)
  | .int n => some ((n : ℚ))
  | .float q => some q
  | _ => none

/-- Python `==` as reached from assert_shape's scalar branches (expected
string, float-tolerance operand, or the final `expected == actual`):
numeric cross-kind equality for bool/int/float, structural equality for
strings, `None` and the `UNDEFINED` sentinel, and False across kinds. -/
def pyEq (e a : JVal) : Bool :=
  match e, a with
  | .str s, .str t => s == t
  | .str _, _ => false
  | .null, .null => true
  | .null, _ => false
  | .undef, .undef => true
  | .undef, _ => false
  | e, a =>
    match asRat e, asRat a with
    | some x, some y => x == y
    | _, _ => false

/-- Python dict lookup on the modelled mapping (first binding wins). -/
def alookup (k : String) : List (String × JVal) → Option JVal
  | [] => none
  | (k', v) :: rest => if k' = k then some v else alookup k rest

mutual

/-- Embedded from flask_resty/testing.py `assert_shape(actual, expected)`,
as the boolean "completes without raising": an expected mapping requires
the actual mapping to contain every expected key (superset allowed), with
an expected value of UNDEFINED asserting the key's absence; an expected
string compares with `==`; an expected sequence requires an actual
sequence of exactly the same length matched element-wise in order; an
expected float requires the numeric actual to be within 1e-6; anything
else is `expected == actual`. -/
def shapeOk (a e : JVal) : Bool :=
  match e with
  | .obj kvs =>
    match a with
    | .obj m => shapeOkObj m kvs
    | _ => false
  | .str s => pyEq (.str s) a
  | .list es =>
    match a with
    | .list xs => shapeOkList xs es
    | _ => false
  | .float q =>
    match asRat a with
    | some x => decide (|x - q| < 1 / 1000000)
    | none => false
  | e => pyEq e a
termination_by sizeOf e

/-- The expected-mapping loop of assert_shape: each expected item is
checked against the actual mapping `m`. -/
def shapeOkObj (m : List (String × JVal)) (kvs : List (String × JVal)) : Bool :=
  match kvs with
  | [] => true
  | (k, v) :: rest =>
    (if isUndef v then (alookup k m).isNone
     else
       match alookup k m with
       | some av => shapeOk av v
       | none => false) && shapeOkObj m rest
termination_by sizeOf kvs

/-- The expected-sequence loop of assert_shape: equal lengths and
element-wise shape check in order. -/
def shapeOkList (xs es : List JVal) : Bool :=
  match xs, es with
  | [], [] => true
  | _ :: _, [] => false
  | [], _ :: _ => false
  | x :: xs, e :: es => shapeOk x e && shapeOkList xs es
termination_by sizeOf es

end

/-- Embedded from testing.py: the predicate built by `Shape(expected)`
runs `assert_shape` and returns True; an assertion failure propagates
through `Predicate.__eq__` rather than becoming False (modelled as
`none`). -/
def shapePredicate (e : JVal) : JVal → Option Bool :=
  fun a => if shapeOk a e then some true else none

/-- Embedded from testing.py `Predicate.__eq__`: evaluating
`actual == Predicate(p)` invokes `p` on the actual value. -/
def predicateEq (p : JVal → Option Bool) (a : JVal) : Option Bool := p a

/-- Whether an expected value falls through to assert_shape's final
`expected == actual` branch: not a mapping, string, sequence or float. -/
def isPlain : JVal → Bool
  | .null | .undef | .bool _ | .int _ => true
  | _ => false

/-- The containment check as the claim states it, written from its words:
an actual mapping may contain keys beyond the expected mapping's, an
expected value of UNDEFINED asserts the key's absence, an actual sequence
must have exactly the expected length with element-wise matching in order,
floats compare within an absolute tolerance of 1e-6, and remaining values
compare with `==`. -/
inductive SpecShape : JVal → JVal → Prop where
  | obj (m kvs : List (String × JVal))
      (hfound : ∀ k v, (k, v) ∈ kvs → v ≠ .undef → (alookup k m).isSome = true)
      (hmatch : ∀ k v av, (k, v) ∈ kvs → alookup k m = some av → SpecShape av v)
      (habsent : ∀ k, (k, JVal.undef) ∈ kvs → alookup k m = none) :
      SpecShape (.obj m) (.obj kvs)
  | list (xs es : List JVal) (h : List.Forall₂ SpecShape xs es) :
      SpecShape (.list xs) (.list es)
  | str (s : String) : SpecShape (.str s) (.str s)
  | float (a : JVal) (q x : ℚ) (hx : asRat a = some x)
      (htol : |x - q| < 1 / 1000000) : SpecShape a (.float q)
  | plain (a e : JVal) (hplain : isPlain e = true) (h : pyEq e a = true) :
      SpecShape a e

theorem isUndef_iff (v : JVal) : isUndef v = true ↔ v = .undef := by
  cases v <;> simp [isUndef]

theorem pyEq_str_iff (s : String) (a : JVal) : pyEq (.str s) a = true ↔ a = .str s := by
  cases a <;> first
  | (simp [pyEq]; done)
  | (simp [pyEq]; exact eq_comm)

theorem sizeOf_lt_of_mem_pair {k : String} {v : JVal} {kvs : List (String × JVal)}
    (h : (k, v) ∈ kvs) : sizeOf v < sizeOf kvs := by
  have h1 := List.sizeOf_lt_of_mem h
  have h2 : sizeOf (k, v) = 1 + sizeOf k + sizeOf v := rfl
  omega

theorem shapeOkList_iff (n : Nat)
    (hih : ∀ e a : JVal, sizeOf e ≤ n → (shapeOk a e = true ↔ SpecShape a e)) :
    ∀ es : List JVal, (∀ e ∈ es, sizeOf e ≤ n) → ∀ xs : List JVal,
      (shapeOkList xs es = true ↔ List.Forall₂ SpecShape xs es) := by
  intro es
  induction es with
  | nil =>
    intro _ xs
    cases xs <;> simp [shapeOkList]
  | cons e es ihes =>
    intro hsz xs
    have hsze : sizeOf e ≤ n := hsz e (List.mem_cons_self ..)
    have hszrest : ∀ x ∈ es, sizeOf x ≤ n := fun x hx => hsz x (List.mem_cons_of_mem _ hx)
    cases xs with
    | nil => simp [shapeOkList]
    | cons x xs =>
      rw [List.forall₂_cons]
      simp only [shapeOkList, Bool.and_eq_true]
      rw [hih e x hsze, ihes hszrest xs]

theorem shapeOkObj_iff (n : Nat)
    (hih : ∀ e a : JVal, sizeOf e ≤ n → (shapeOk a e = true ↔ SpecShape a e))
    (m : List (String × JVal)) :
    ∀ kvs : List (String × JVal), (∀ p ∈ kvs, sizeOf p.2 ≤ n) →
      (shapeOkObj m kvs = true ↔
        ((∀ k v, (k, v) ∈ kvs → v ≠ .undef → (alookup k m).isSome = true) ∧
         (∀ k v av, (k, v) ∈ kvs → alookup k m = some av → SpecShape av v) ∧
         (∀ k, (k, JVal.undef) ∈ kvs → alookup k m = none))) := by
  intro kvs
  induction kvs with
  | nil =>
    intro _
    simp [shapeOkObj]
  | cons p rest ihrest =>
    obtain ⟨k, v⟩ := p
    intro hsz
    have hszv : sizeOf v ≤ n := hsz (k, v) (List.mem_cons_self ..)
    have hszrest : ∀ p ∈ rest, sizeOf p.2 ≤ n := fun p hp => hsz p (List.mem_cons_of_mem _ hp)
    simp only [shapeOkObj, Bool.and_eq_true]
    rw [ihrest hszrest]
    by_cases hv : isUndef v = true
    · have hveq : v = .undef := (isUndef_iff v).mp hv
      subst hveq
      rw [if_pos hv]
      constructor
      · rintro ⟨hnone, hfound', hmatch', habsent'⟩
        have hknone : alookup k m = none := by
          rw [← Option.isNone_iff_eq_none]
          exact hnone
        refine ⟨?_, ?_, ?_⟩
        · intro k' v' hmem hne
          rcases List.mem_cons.mp hmem with heq | hmem'
          · injection heq with h1 h2
            exact absurd h2 hne
          · exact hfound' k' v' hmem' hne
        · intro k' v' av hmem hl
          rcases List.mem_cons.mp hmem with heq | hmem'
          · injection heq with h1 h2
            subst h1
            rw [hknone] at hl
            cases hl
          · exact hmatch' k' v' av hmem' hl
        · intro k' hmem
          rcases List.mem_cons.mp hmem with heq | hmem'
          · injection heq with h1 h2
            subst h1
            exact hknone
          · exact habsent' k' hmem'
      · rintro ⟨hfound', hmatch', habsent'⟩
        have hknone : alookup k m = none := habsent' k (List.mem_cons_self ..)
        refine ⟨by rw [hknone]; rfl, ?_, ?_, ?_⟩
        · exact fun k' v' hm hne => hfound' k' v' (List.mem_cons_of_mem _ hm) hne
        · exact fun k' v' av hm hl => hmatch' k' v' av (List.mem_cons_of_mem _ hm) hl
        · exact fun k' hm => habsent' k' (List.mem_cons_of_mem _ hm)
    · have hvne : v ≠ .undef := fun h => hv ((isUndef_iff v).mpr h)
      rw [if_neg hv]
      cases hl : alookup k m with
      | none =>
        simp only [hl]
        constructor
        · rintro ⟨hfalse, -⟩
          cases hfalse
        · rintro ⟨hfound', -, -⟩
          have := hfound' k v (List.mem_cons_self ..) hvne
          rw [hl] at this
          cases this
      | some av =>
        simp only [hl]
        rw [hih v av hszv]
        constructor
        · rintro ⟨hspec, hfound', hmatch', habsent'⟩
          refine ⟨?_, ?_, ?_⟩
          · intro k' v' hmem hne
            rcases List.mem_cons.mp hmem with heq | hmem'
            · injection heq with h1 h2
              subst h1
              rw [hl]
              rfl
            · exact hfound' k' v' hmem' hne
          · intro k' v' av' hmem hl'
            rcases List.mem_cons.mp hmem with heq | hmem'
            · injection heq with h1 h2
              subst h1
              subst h2
              rw [hl] at hl'
              injection hl' with h3
              subst h3
              exact hspec
            · exact hmatch' k' v' av' hmem' hl'
          · intro k' hmem
            rcases List.mem_cons.mp hmem with heq | hmem'
            · injection heq with h1 h2
              exact absurd h2.symm hvne
            · exact habsent' k' hmem'
        · rintro ⟨hfound', hmatch', habsent'⟩
          refine ⟨hmatch' k v av (List.mem_cons_self ..) hl, ?_, ?_, ?_⟩
          · exact fun k' v' hm hne => hfound' k' v' (List.mem_cons_of_mem _ hm) hne
          · exact fun k' v' av' hm hl' => hmatch' k' v' av' (List.mem_cons_of_mem _ hm) hl'
          · exact fun k' hm => habsent' k' (List.mem_cons_of_mem _ hm)

theorem shapeOk_iff_specShape_aux :
    ∀ (n : Nat) (e a : JVal), sizeOf e ≤ n → (shapeOk a e = true ↔ SpecShape a e) := by
  intro n
  induction n with
  | zero =>
    intro e a h
    exfalso
    cases e <;> simp at h
  | succ n ih =>
    intro e a hle
    cases e with
    | null =>
      simp only [shapeOk]
      constructor
      · exact fun h => SpecShape.plain a .null rfl h
      · intro h
        cases h with
        | plain _ _ _ hpy => exact hpy
    | undef =>
      simp only [shapeOk]
      constructor
      · exact fun h => SpecShape.plain a .undef rfl h
      · intro h
        cases h with
        | plain _ _ _ hpy => exact hpy
    | bool b =>
      simp only [shapeOk]
      constructor
      · exact fun h => SpecShape.plain a (.bool b) rfl h
      · intro h
        cases h with
        | plain _ _ _ hpy => exact hpy
    | int i =>
      simp only [shapeOk]
      constructor
      · exact fun h => SpecShape.plain a (.int i) rfl h
      · intro h
        cases h with
        | plain _ _ _ hpy => exact hpy
    | str s =>
      simp only [shapeOk]
      constructor
      · intro h
        obtain rfl := (pyEq_str_iff s a).mp h
        exact SpecShape.str s
      · intro h
        cases h with
        | str => exact (pyEq_str_iff s (.str s)).mpr rfl
        | plain _ _ hp _ => cases hp
    | float q =>
      simp only [shapeOk]
      constructor
      · intro h
        cases ha : asRat a with
        | none =>
          rw [ha] at h
          cases h
        | some x =>
          rw [ha] at h
          exact SpecShape.float a q x ha (of_decide_eq_true h)
      · intro h
        cases h with
        | float _ _ x hx htol =>
          rw [hx]
          exact decide_eq_true htol
        | plain _ _ hp _ => cases hp
    | list es =>
      have hsize : ∀ e' ∈ es, sizeOf e' ≤ n := by
        intro e' he'
        have h1 := List.sizeOf_lt_of_mem he'
        have h2 : sizeOf (JVal.list es) = 1 + sizeOf es := by simp
        omega
      cases a with
      | list xs =>
        simp only [shapeOk]
        rw [shapeOkList_iff n ih es hsize xs]
        constructor
        · exact fun h => SpecShape.list xs es h
        · intro h
          cases h with
          | list _ _ hf => exact hf
          | plain _ _ hp _ => cases hp
      | null =>
        refine ⟨fun h => by simp [shapeOk] at h, fun h => ?_⟩
        cases h with
        | plain _ _ hp _ => cases hp
      | undef =>
        refine ⟨fun h => by simp [shapeOk] at h, fun h => ?_⟩
        cases h with
        | plain _ _ hp _ => cases hp
      | bool b =>
        refine ⟨fun h => by simp [shapeOk] at h, fun h => ?_⟩
        cases h with
        | plain _ _ hp _ => cases hp
      | int i =>
        refine ⟨fun h => by simp [shapeOk] at h, fun h => ?_⟩
        cases h with
        | plain _ _ hp _ => cases hp
      | float x =>
        refine ⟨fun h => by simp [shapeOk] at h, fun h => ?_⟩
        cases h with
        | plain _ _ hp _ => cases hp
      | str t =>
        refine ⟨fun h => by simp [shapeOk] at h, fun h => ?_⟩
        cases h with
        | plain _ _ hp _ => cases hp
      | obj m =>
        refine ⟨fun h => by simp [shapeOk] at h, fun h => ?_⟩
        cases h with
        | plain _ _ hp _ => cases hp
    | obj kvs =>
      have hsize : ∀ p ∈ kvs, sizeOf p.2 ≤ n := by
        intro p hp
        obtain ⟨k, v⟩ := p
        have h1 := sizeOf_lt_of_mem_pair hp
        have h2 : sizeOf (JVal.obj kvs) = 1 + sizeOf kvs := by simp
        show sizeOf v ≤ n
        omega
      cases a with
      | obj m =>
        simp only [shapeOk]
        rw [shapeOkObj_iff n ih m kvs hsize]
        constructor
        · rintro ⟨hfound, hmatch, habsent⟩
          exact SpecShape.obj m kvs hfound hmatch habsent
        · intro h
          cases h with
          | obj _ _ hfound hmatch habsent => exact ⟨hfound, hmatch, habsent⟩
          | plain _ _ hp _ => cases hp
      | null =>
        refine ⟨fun h => by simp [shapeOk] at h, fun h => ?_⟩
        cases h with
        | plain _ _ hp _ => cases hp
      | undef =>
        refine ⟨fun h => by simp [shapeOk] at h, fun h => ?_⟩
        cases h with
        | plain _ _ hp _ => cases hp
      | bool b =>
        refine ⟨fun h => by simp [shapeOk] at h, fun h => ?_⟩
        cases h with
        | plain _ _ hp _ => cases hp
      | int i =>
        refine ⟨fun h => by simp [shapeOk] at h, fun h => ?_⟩
        cases h with
        | plain _ _ hp _ => cases hp
      | float x =>
        refine ⟨fun h => by simp [shapeOk] at h, fun h => ?_⟩
        cases h with
        | plain _ _ hp _ => cases hp
      | str t =>
        refine ⟨fun h => by simp [shapeOk] at h, fun h => ?_⟩
        cases h with
        | plain _ _ hp _ => cases hp
      | list xs =>
        refine ⟨fun h => by simp [shapeOk] at h, fun h => ?_⟩
        cases h with
        | plain _ _ hp _ => cases hp

/-- C9: for every pair of values, `actual == Shape(expected)` returns True
exactly when `assert_shape(actual, expected)` completes without raising;
and both implement the containment check the claim describes: an actual
mapping may contain keys beyond the expected mapping's (an expected value
of UNDEFINED asserts the key's absence), an actual sequence must have
exactly the expected length with element-wise matching in order, and
floats compare within an absolute tolerance of 1e-6. -/
theorem shape_predicate_equals_assert_shape :
    (∀ a e : JVal, predicateEq (shapePredicate e) a = some true ↔ shapeOk a e = true) ∧
    (∀ a e : JVal, shapeOk a e = true ↔ SpecShape a e) := by
  constructor
  · intro a e
    simp only [predicateEq, shapePredicate]
    cases h : shapeOk a e <;> simp [h]
  · intro a e
    exact shapeOk_iff_specShape_aux (sizeOf e) e a (le_refl _)

end FlaskResty
